import Mathlib

/-!
Verification of the selection-resolver core of the lingua-ai-reader
repository (src/src/hooks/useTextSelection.ts) against its
natural-language specification.

The TypeScript code works on JavaScript strings; here a string is
modelled as `List Char` (all characters appearing in this development
are in the Basic Multilingual Plane, where one JS UTF-16 unit is one
scalar value).  JS helper functions (`lastIndexOf`, `indexOf`,
`search`, `trim`, `slice`) are modelled by executable Lean functions
below.  DOM shape assumed throughout: one paragraph rendered as one
text node, so `paragraphText.indexOf(textContent) = 0` and the
character offset inside the node is the offset inside the paragraph.
-/

/-- Character class of the JavaScript regex `\s` (ECMAScript WhiteSpace
and LineTerminator), which is also the set trimmed by `String.prototype.trim`. -/
def isWsCh (c : Char) : Bool :=
  c == ' ' || c == '\t' || c == '\n' || c.val == 11 || c.val == 12 || c == '\r' ||
  c.val == 160 || c.val == 5760 || (decide (8192 ≤ c.val) && decide (c.val ≤ 8202)) ||
  c.val == 8232 || c.val == 8233 || c.val == 8239 || c.val == 8287 ||
  c.val == 12288 || c.val == 65279

/-- Character class of the JavaScript regex `\S` (complement of `\s`). -/
def isNonWs (c : Char) : Bool := !(isWsCh c)

/-- Sentence-terminator characters of the regex `[.!?]` in `extractSentence`. -/
def isTermCh (c : Char) : Bool := c == '.' || c == '!' || c == '?'

/-- Punctuation class of the strip regex `[.,;:!?¿¡"'«»—\-]` in
`getWordAtPoint` (line 65 of useTextSelection.ts).  Note: the dashes in
the set are the em dash U+2014 and the ASCII hyphen-minus U+002D. -/
def isPunctCh (c : Char) : Bool :=
  c == '.' || c == ',' || c == ';' || c == ':' || c == '!' || c == '?' ||
  c == '¿' || c == '¡' || c == '"' || c == Char.ofNat 39 || c == '«' || c == '»' ||
  c == '—' || c == '-'

/-- Model of `String.prototype.trim`: strip the `\s` class from both ends. -/
def jsTrim (l : List Char) : List Char :=
  ((l.dropWhile isWsCh).reverse.dropWhile isWsCh).reverse

/-- Helper for `jsLastIndexOf`: the greatest index `i ≤ n` at which `pat`
occurs in `l`, scanning downward from `n`; `-1` if there is none. -/
def lastIdxFrom (l pat : List Char) : Nat → Int
  | 0 => if pat = l.take pat.length then 0 else -1
  | n + 1 =>
    if pat = (l.drop (n + 1)).take pat.length then ((n + 1 : Nat) : Int)
    else lastIdxFrom l pat n

/-- Model of `String.prototype.lastIndexOf`: greatest index at which `pat`
occurs in `l`, or `-1` if it does not occur. -/
def jsLastIndexOf (l pat : List Char) : Int := lastIdxFrom l pat l.length

/-- First index at which `pat` occurs in `l`, if any. -/
def firstIdx : List Char → List Char → Option Nat
  | [], pat => if pat = [] then some 0 else none
  | c :: rest, pat =>
    if pat = (c :: rest).take pat.length then some 0
    else (firstIdx rest pat).map (· + 1)

/-- Model of `String.prototype.indexOf`: first index at which `pat` occurs
in `l`, or `-1` if it does not occur. -/
def jsIndexOf (l pat : List Char) : Int :=
  match firstIdx l pat with
  | none => -1
  | some i => (i : Int)

/-- Match test for the regex `[.!?]\s|[.!?]$` at the head of the string:
`c` is a sentence terminator and the rest starts with whitespace or is
the end of the string. -/
def termHit (c : Char) (rest : List Char) : Bool :=
  isTermCh c && (match rest with | [] => true | d :: _ => isWsCh d)

/-- Model of `afterText.search(/[.!?]\s|[.!?]$/)` (line 48): index of the
first sentence terminator that is followed by whitespace or by the end of
the string; `none` models the JS result `-1`. -/
def termSearch : List Char → Option Nat
  | [] => none
  | c :: rest => if termHit c rest then some 0 else (termSearch rest).map (· + 1)

/-- Value of the `sentenceStart` local of `extractSentence` (lines 39-46):
`Math.max(lastIndexOf(". ") + 2, lastIndexOf("! ") + 2, lastIndexOf("? ") + 2,
lastIndexOf("¿"), lastIndexOf("¡"), 0)` over `beforeText`. -/
def sentStartOf (beforeText : List Char) : Nat :=
  (max (max (max (max (max
    (jsLastIndexOf beforeText ['.', ' '] + 2)
    (jsLastIndexOf beforeText ['!', ' '] + 2))
    (jsLastIndexOf beforeText ['?', ' '] + 2))
    (jsLastIndexOf beforeText ['¿']))
    (jsLastIndexOf beforeText ['¡']))
    0).toNat

/-- Value of the `sentenceEnd` local of `extractSentence` (lines 48-50):
the terminator search result plus one, or the length of `afterText` when
the search fails. -/
def sentEndOf (afterText : List Char) : Nat :=
  match termSearch afterText with
  | none => afterText.length
  | some k => k + 1

/-- Model of `extractSentence` (useTextSelection.ts lines 28-53) for a
paragraph rendered as a single text node: `paragraphText` is the
paragraph's flat text and `pos` the character offset in it
(`paragraphText.indexOf(textContent) = 0`, so `pos` is the node offset).
`beforeText` is `slice(0, pos)` and `afterText` is `slice(pos)`. -/
def extractSentence (paragraphText : List Char) (pos : Nat) : List Char :=
  jsTrim ((paragraphText.take pos).drop (sentStartOf (paragraphText.take pos)) ++
    (paragraphText.drop pos).take (sentEndOf (paragraphText.drop pos)))

/-- Modelled from the spec: the `sentenceStart` value exactly as the
specification and claim C1 word it: the maximum of 1 + the index of the
last `". "`, `"! "`, `"? "` before the offset, the index of the last
`'¿'`/`'¡'` before the offset, and `0` if none is found (a missing term
contributes `-1 + 1 = 0` resp. `-1`, i.e. nothing). -/
def specSentStartC1 (beforeText : List Char) : Nat :=
  (max (max (max (max (max
    (jsLastIndexOf beforeText ['.', ' '] + 1)
    (jsLastIndexOf beforeText ['!', ' '] + 1))
    (jsLastIndexOf beforeText ['?', ' '] + 1))
    (jsLastIndexOf beforeText ['¿']))
    (jsLastIndexOf beforeText ['¡']))
    0).toNat

/-- Modelled from the spec: the sentence-extraction result exactly as the
specification and claim C1 word it, for comparison with `extractSentence`. -/
def specSentenceC1 (paragraphText : List Char) (pos : Nat) : List Char :=
  jsTrim ((paragraphText.take pos).drop (specSentStartC1 (paragraphText.take pos)) ++
    (paragraphText.drop pos).take (sentEndOf (paragraphText.drop pos)))

/-- Model of the left scan of `getWordAtPoint` (line 62):
`while (start > 0 && /\S/.test(text[start - 1])) start--`. -/
def scanLeftW (t : List Char) (i : Nat) : Nat :=
  i - ((t.take i).reverse.takeWhile isNonWs).length

/-- Model of the right scan of `getWordAtPoint` (line 63):
`while (end < text.length && /\S/.test(text[end])) end++`. -/
def scanRightW (t : List Char) (i : Nat) : Nat :=
  i + ((t.drop i).takeWhile isNonWs).length

/-- Model of `text.slice(start, end)` for the scanned word run (line 65). -/
def runOf (t : List Char) (i : Nat) : List Char :=
  (t.drop (scanLeftW t i)).take (scanRightW t i - scanLeftW t i)

/-- Model of `.replace(/^[.,;:!?¿¡"'«»—\-]+|[.,;:!?¿¡"'«»—\-]+$/g, "")`
(line 65): strip a maximal leading run and a maximal trailing run of the
configured punctuation characters. -/
def stripPunct (l : List Char) : List Char :=
  ((l.dropWhile isPunctCh).reverse.dropWhile isPunctCh).reverse

/-- Result of `getWordAtPoint`: the stripped word together with the
committed native highlight range `[rStart, rEnd)` on the text node. -/
structure WordHit where
  word : List Char
  rStart : Nat
  rEnd : Nat
deriving DecidableEq

/-- Value of the `word` local of `getWordAtPoint` (line 65). -/
def wordOf (t : List Char) (i : Nat) : List Char := stripPunct (runOf t i)

/-- Value of the `strippedStart` local of `getWordAtPoint` (line 68):
`start + text.slice(start, end).indexOf(word)`.  The `toNat` is inert:
the stripped word always occurs in the run, so the JS `indexOf` result
is nonnegative there. -/
def strippedStartOf (t : List Char) (i : Nat) : Nat :=
  scanLeftW t i + (jsIndexOf (runOf t i) (wordOf t i)).toNat

/-- Model of `getWordAtPoint` (useTextSelection.ts lines 55-76). -/
def getWordAtPoint (t : List Char) (offset : Nat) : Option WordHit :=
  if t.length ≤ offset then none
  else if wordOf t offset = [] then none
  else some ⟨wordOf t offset, strippedStartOf t offset,
    strippedStartOf t offset + (wordOf t offset).length⟩

/-- Model of the `TextSelection` value emitted to the host (`rect` is a
screen-space box and is not modelled). -/
structure TSel where
  text : List Char
  sentence : List Char
deriving DecidableEq

/-- Model of `selectWordAt` (lines 98-116) as a transformer of the live
selection state: `caret` is the result of `getCaretAt` (`none` when no
caret-resolution API is available or no text position resolves),
`inSurf` is `container.contains(caret.node)`, and `cur` the previously
live selection.  Every failure path leaves `cur` unchanged. -/
def selectWordAt (caret : Option (List Char × Nat)) (inSurf : Bool)
    (cur : Option TSel) : Option TSel :=
  match caret with
  | none => cur
  | some (t, o) =>
    if !inSurf then cur
    else
      match getWordAtPoint t o with
      | none => cur
      | some hit => some ⟨hit.word, extractSentence t o⟩

/-- Model of `handleSelectionChange` (lines 123-141) for a native selection
lying in a single text-node paragraph `para`, from character `s` to
character `e`: `sel.isCollapsed ↔ s = e`, `sel.toString()` is
`para.slice(s, e)`, and the sentence is extracted at the range's start
offset.  `inSurf` is the containment check of line 128. -/
def handleSelectionChange (para : List Char) (s e : Nat) (inSurf : Bool)
    (cur : Option TSel) : Option TSel :=
  if s = e then cur
  else if !inSurf then cur
  else
    let text := jsTrim ((para.drop s).take (e - s))
    if text = [] ∨ text.length < 2 then cur
    else some ⟨text, extractSentence para s⟩

/-- State owned by the tap path of the resolver: the dedup timestamp
`lastTapTime` and the live selection. -/
structure TapState where
  lastTapTime : Int
  cur : Option TSel
deriving DecidableEq

/-- Guard of line 163: `sel && !sel.isCollapsed && sel.toString().trim().length > 1`,
over the active native selection modelled as `(isCollapsed, toString())`. -/
def selBlocks (sel : Option (Bool × List Char)) : Bool :=
  match sel with
  | some p => !p.1 && decide (1 < (jsTrim p.2).length)
  | none => false

/-- Model of `fireTap` (lines 157-166).  `sel` is the active native
selection as `(isCollapsed, toString())`, `caret`/`inSurf` feed the inner
`selectWordAt` call.  The returned `Bool` records whether `selectWordAt`
was invoked (the tap "fired"). -/
def fireTap (st : TapState) (now : Int) (sel : Option (Bool × List Char))
    (caret : Option (List Char × Nat)) (inSurf : Bool) : TapState × Bool :=
  if now - st.lastTapTime < 400 then (st, false)
  else if selBlocks sel then (⟨now, st.cur⟩, false)
  else (⟨now, selectWordAt caret inSurf st.cur⟩, true)

/-- Touch-start record kept by the resolver (line 154). -/
structure TouchPt where
  x : Int
  y : Int
  time : Int
deriving DecidableEq

/-- Model of `onTouchEnd` (lines 174-185): returns the coordinates passed
to `fireTap` when the gesture is classified as a quick tap
(`dt < 500ms`, `|dx| < 10`, `|dy| < 10`), `none` otherwise.  `single` is
`e.changedTouches.length === 1`. -/
def onTouchEnd (touchStart : Option TouchPt) (single : Bool)
    (tx ty now : Int) : Option (Int × Int) :=
  match touchStart with
  | none => none
  | some s =>
    if !single then none
    else
      if now - s.time < 500 ∧ (tx - s.x).natAbs < 10 ∧ (ty - s.y).natAbs < 10
      then some (s.x, s.y)
      else none

/-- Executable substring test: `isSub w l = true` iff `w` occurs
contiguously in `l`. -/
def isSub (w : List Char) : List Char → Bool
  | [] => decide (w = [])
  | c :: rest => decide (w = (c :: rest).take w.length) || isSub w rest

/-! Helper lemmas about `takeWhile`, `dropWhile` and `getD`. -/

lemma takeWhile_getD (p : Char → Bool) :
    ∀ (l : List Char) (j : Nat) (d : Char),
      j < (l.takeWhile p).length → p (l.getD j d) = true := by
  intro l
  induction l with
  | nil => intro j d h; simp [List.takeWhile] at h
  | cons c rest ih =>
    intro j d h
    rw [List.takeWhile_cons] at h
    by_cases hc : p c
    · rw [if_pos hc] at h
      cases j with
      | zero => simpa using hc
      | succ j => exact ih j d (by simpa using h)
    · rw [if_neg hc] at h; simp at h

lemma takeWhile_stop (p : Char → Bool) :
    ∀ (l : List Char) (d : Char),
      (l.takeWhile p).length < l.length →
      p (l.getD (l.takeWhile p).length d) = false := by
  intro l
  induction l with
  | nil => intro d h; simp at h
  | cons c rest ih =>
    intro d h
    rw [List.takeWhile_cons] at h ⊢
    by_cases hc : p c
    · rw [if_pos hc] at h ⊢
      simpa using ih d (by simpa using h)
    · rw [if_neg hc]
      simpa using Bool.of_not_eq_true hc

lemma length_takeWhile_le (p : Char → Bool) :
    ∀ l : List Char, (l.takeWhile p).length ≤ l.length := by
  intro l
  induction l with
  | nil => simp
  | cons c rest ih =>
    rw [List.takeWhile_cons]
    by_cases hc : p c
    · rw [if_pos hc]; simpa using ih
    · rw [if_neg hc]; simp

lemma takeWhile_eq_take (p : Char → Bool) :
    ∀ l : List Char, l.takeWhile p = l.take (l.takeWhile p).length := by
  intro l
  induction l with
  | nil => simp
  | cons c rest ih =>
    rw [List.takeWhile_cons]
    by_cases hc : p c
    · rw [if_pos hc]; simpa using ih
    · rw [if_neg hc]; simp

lemma mem_takeWhile_pred (p : Char → Bool) :
    ∀ (l : List Char) (c : Char), c ∈ l.takeWhile p → p c = true := by
  intro l
  induction l with
  | nil => intro c h; simp [List.takeWhile] at h
  | cons a rest ih =>
    intro c h
    rw [List.takeWhile_cons] at h
    by_cases ha : p a
    · rw [if_pos ha] at h
      rcases List.mem_cons.mp h with h | h
      · exact h ▸ ha
      · exact ih c h
    · rw [if_neg ha] at h; simp at h

lemma dropWhile_head_false (p : Char → Bool) :
    ∀ (l : List Char) (c : Char) (rest : List Char),
      l.dropWhile p = c :: rest → p c = false := by
  intro l
  induction l with
  | nil => intro c rest h; simp [List.dropWhile] at h
  | cons a l' ih =>
    intro c rest h
    rw [List.dropWhile_cons] at h
    by_cases ha : p a
    · rw [if_pos ha] at h; exact ih c rest h
    · rw [if_neg ha] at h
      obtain ⟨rfl, -⟩ := List.cons.inj h
      exact Bool.of_not_eq_true ha

lemma dropWhile_nil_of_all (p : Char → Bool) :
    ∀ l : List Char, (∀ c ∈ l, p c = true) → l.dropWhile p = [] := by
  intro l
  induction l with
  | nil => intro _; simp
  | cons a l' ih =>
    intro h
    rw [List.dropWhile_cons, if_pos]
    · exact ih fun c hc => h c (List.mem_cons_of_mem a hc)
    · exact h a (List.mem_cons_self a l')

lemma getD_append_left (u v : List Char) (d : Char) :
    ∀ j, j < u.length → (u ++ v).getD j d = u.getD j d := by
  induction u with
  | nil => intro j h; simp at h
  | cons a u' ih =>
    intro j h
    cases j with
    | zero => rfl
    | succ j => exact ih j (by simpa using h)

lemma getD_append_right (u v : List Char) (d : Char) :
    ∀ j, (u ++ v).getD (u.length + j) d = v.getD j d := by
  induction u with
  | nil => intro j; simp
  | cons a u' ih =>
    intro j
    have : (a :: u').length + j = (u'.length + j) + 1 := by
      simp [List.length_cons]; omega
    rw [this]
    exact ih j

lemma getD_take (d : Char) :
    ∀ (l : List Char) (n j : Nat), j < n → (l.take n).getD j d = l.getD j d := by
  intro l
  induction l with
  | nil => intro n j _; simp
  | cons a l' ih =>
    intro n j h
    cases n with
    | zero => omega
    | succ n =>
      cases j with
      | zero => rfl
      | succ j => exact ih n j (by omega)

lemma getD_drop (d : Char) :
    ∀ (l : List Char) (n j : Nat), (l.drop n).getD j d = l.getD (n + j) d := by
  intro l
  induction l with
  | nil => intro n j; simp
  | cons a l' ih =>
    intro n j
    cases n with
    | zero => simp
    | succ n =>
      have : (n + 1) + j = (n + j) + 1 := by omega
      rw [this]
      exact ih n j

lemma getD_mem (d : Char) :
    ∀ (l : List Char) (j : Nat), j < l.length → l.getD j d ∈ l := by
  intro l
  induction l with
  | nil => intro j h; simp at h
  | cons a l' ih =>
    intro j h
    cases j with
    | zero => exact List.mem_cons_self a l'
    | succ j => exact List.mem_cons_of_mem a (ih j (by simpa using h))

/-! Helper lemmas about the substring test `isSub` and `jsTrim`. -/

lemma isSub_self_append (w v : List Char) : isSub w (w ++ v) = true := by
  cases hwv : w ++ v with
  | nil =>
    have hw : w = [] := (List.append_eq_nil.mp hwv).1
    simp [isSub, hw]
  | cons c rest =>
    simp only [isSub]
    have htk : (c :: rest).take w.length = w := by
      rw [← hwv]; exact List.take_left w v
    rw [htk]
    simp

lemma isSub_of_decomp (w : List Char) :
    ∀ (u v l : List Char), l = u ++ (w ++ v) → isSub w l = true := by
  intro u
  induction u with
  | nil => intro v l h; rw [h]; simpa using isSub_self_append w v
  | cons c u' ih =>
    intro v l h
    subst h
    simp only [List.cons_append, isSub, List.append_eq]
    rw [ih v (u' ++ (w ++ v)) rfl]
    simp

lemma isSub_decomp (w : List Char) :
    ∀ l : List Char, isSub w l = true → ∃ u v, l = u ++ (w ++ v) := by
  intro l
  induction l with
  | nil =>
    intro h
    simp only [isSub] at h
    have : w = [] := of_decide_eq_true h
    exact ⟨[], [], by simp [this]⟩
  | cons c rest ih =>
    intro h
    simp only [isSub, List.append_eq] at h
    rcases Bool.or_eq_true_iff.mp h with h | h
    · have hw : w = (c :: rest).take w.length := of_decide_eq_true h
      refine ⟨[], (c :: rest).drop w.length, ?_⟩
      conv_lhs => rw [← List.take_append_drop w.length (c :: rest)]
      rw [← hw]
      simp
    · obtain ⟨u, v, huv⟩ := ih h
      exact ⟨c :: u, v, by simp [huv]⟩

lemma sub_dropWhile (p : Char → Bool) (w : List Char) (hw : w ≠ [])
    (hwp : ∀ c ∈ w, p c = false) :
    ∀ u v : List Char, ∃ u' v', (u ++ (w ++ v)).dropWhile p = u' ++ (w ++ v') := by
  intro u
  induction u with
  | nil =>
    intro v
    obtain ⟨hw0, w', rfl⟩ : ∃ (hw0 : Char) (w' : List Char), w = hw0 :: w' := by
      cases w with
      | nil => exact absurd rfl hw
      | cons a b => exact ⟨a, b, rfl⟩
    refine ⟨[], v, ?_⟩
    simp only [List.nil_append, List.cons_append, List.dropWhile_cons]
    rw [if_neg]
    rw [hwp hw0 (List.mem_cons_self hw0 w')]
    simp
  | cons c u' ih =>
    intro v
    simp only [List.cons_append, List.dropWhile_cons]
    by_cases hc : p c
    · rw [if_pos hc]; exact ih v
    · rw [if_neg hc]
      exact ⟨c :: u', v, rfl⟩

lemma isSub_trim (w l : List Char) (hne : w ≠ [])
    (hws : ∀ c ∈ w, isWsCh c = false) (h : isSub w l = true) :
    isSub w (jsTrim l) = true := by
  obtain ⟨u, v, rfl⟩ := isSub_decomp w l h
  obtain ⟨u1, v1, h1⟩ := sub_dropWhile isWsCh w hne hws u v
  have hrev : ((u ++ (w ++ v)).dropWhile isWsCh).reverse =
      v1.reverse ++ (w.reverse ++ u1.reverse) := by
    rw [h1]; simp [List.reverse_append]
  have hwne : w.reverse ≠ [] := by simpa using hne
  have hwsr : ∀ c ∈ w.reverse, isWsCh c = false := by
    intro c hc; exact hws c (List.mem_reverse.mp hc)
  obtain ⟨u2, v2, h2⟩ := sub_dropWhile isWsCh w.reverse hwne hwsr v1.reverse u1.reverse
  rw [jsTrim, hrev, h2]
  refine isSub_of_decomp w v2.reverse u2.reverse _ ?_
  simp [List.reverse_append]

lemma isSub_slice (l : List Char) (i n m : Nat) (h : i + n ≤ m) :
    isSub ((l.drop i).take n) (l.take m) = true := by
  have h2 : (l.drop i).take n ++ ((l.drop i).drop n).take (m - i - n) =
      (l.drop i).take (m - i) := by
    rw [← List.take_add]; congr 1; omega
  have h1 : l.take i ++ (l.drop i).take (m - i) = l.take m := by
    rw [← List.take_add]; congr 1; omega
  exact isSub_of_decomp _ (l.take i) (((l.drop i).drop n).take (m - i - n)) _
    (by rw [← h1, ← h2])

/-! Helper lemmas about the word scans, the scanned run, and occurrence search. -/

lemma scanLeft_le (t : List Char) (i : Nat) : scanLeftW t i ≤ i := Nat.sub_le _ _

lemma scanRight_ge (t : List Char) (i : Nat) : i ≤ scanRightW t i := Nat.le_add_right _ _

lemma scanRight_le_len (t : List Char) (i : Nat) (h : i ≤ t.length) :
    scanRightW t i ≤ t.length := by
  have h2 := length_takeWhile_le isNonWs (t.drop i)
  rw [List.length_drop] at h2
  rw [scanRightW]; omega

lemma leftTW_le (t : List Char) (i : Nat) (h : i ≤ t.length) :
    ((t.take i).reverse.takeWhile isNonWs).length ≤ i := by
  have h2 := length_takeWhile_le isNonWs (t.take i).reverse
  rw [List.length_reverse, List.length_take] at h2
  omega

lemma take_decomp (t : List Char) (i : Nat) :
    t.take i = ((t.take i).reverse.dropWhile isNonWs).reverse ++
      ((t.take i).reverse.takeWhile isNonWs).reverse := by
  calc t.take i = (t.take i).reverse.reverse := by rw [List.reverse_reverse]
    _ = (((t.take i).reverse.takeWhile isNonWs) ++
        ((t.take i).reverse.dropWhile isNonWs)).reverse := by
        rw [List.takeWhile_append_dropWhile]
    _ = _ := by rw [List.reverse_append]

lemma leftRest_len (t : List Char) (i : Nat) (h : i ≤ t.length) :
    (((t.take i).reverse.dropWhile isNonWs).reverse).length = scanLeftW t i := by
  have h2 := congrArg List.length (List.takeWhile_append_dropWhile isNonWs (t.take i).reverse)
  rw [List.length_append, List.length_reverse, List.length_take] at h2
  rw [List.length_reverse, scanLeftW]
  omega

lemma drop_scan_decomp (t : List Char) (i : Nat) (h : i ≤ t.length) :
    ∀ s : Nat, s = scanLeftW t i →
      t.drop s = ((t.take i).reverse.takeWhile isNonWs).reverse ++ t.drop i := by
  intro s hs
  have hlr := leftRest_len t i h
  rw [← hs] at hlr
  have hsi : s ≤ i := hs ▸ scanLeft_le t i
  have htl : (t.take i).length = i := by
    rw [List.length_take]; omega
  conv_lhs => rw [← List.take_append_drop i t]
  rw [List.drop_append_of_le_length (by rw [htl]; exact hsi)]
  congr 1
  conv_lhs => rw [take_decomp t i]
  exact List.drop_left' hlr

lemma run_decomp (t : List Char) (i : Nat) (h : i ≤ t.length) :
    runOf t i = ((t.take i).reverse.takeWhile isNonWs).reverse ++
      (t.drop i).takeWhile isNonWs := by
  have hLT := leftTW_le t i h
  have h1 := drop_scan_decomp t i h (scanLeftW t i) rfl
  have h2 : scanRightW t i - scanLeftW t i =
      (((t.take i).reverse.takeWhile isNonWs).reverse).length +
      ((t.drop i).takeWhile isNonWs).length := by
    rw [List.length_reverse, scanRightW, scanLeftW]
    omega
  rw [runOf, h1, h2, List.take_append]
  congr 1
  exact (takeWhile_eq_take isNonWs (t.drop i)).symm

lemma run_all_nonws (t : List Char) (i : Nat) (h : i ≤ t.length) :
    ∀ c ∈ runOf t i, isNonWs c = true := by
  intro c hc
  rw [run_decomp t i h] at hc
  rcases List.mem_append.mp hc with hc | hc
  · exact mem_takeWhile_pred _ _ _ (List.mem_reverse.mp hc)
  · exact mem_takeWhile_pred _ _ _ hc

lemma run_length (t : List Char) (i : Nat) (h : i ≤ t.length) :
    (runOf t i).length = scanRightW t i - scanLeftW t i := by
  rw [runOf, List.length_take, List.length_drop]
  have h1 := scanRight_le_len t i h
  have h2 := scanLeft_le t i
  omega

lemma left_region_nonws (t : List Char) (o j : Nat) (ho : o ≤ t.length)
    (h1 : scanLeftW t o ≤ j) (h2 : j < o) : isNonWs (t.getD j ' ') = true := by
  have hLT := leftTW_le t o ho
  have hlr := leftRest_len t o ho
  have hgd : t.getD j ' ' = (t.take o).getD j ' ' := (getD_take ' ' t o j h2).symm
  rw [hgd, take_decomp t o]
  have hj : j = (((t.take o).reverse.dropWhile isNonWs).reverse).length +
      (j - scanLeftW t o) := by rw [hlr]; omega
  rw [hj, getD_append_right]
  have hb : j - scanLeftW t o <
      (((t.take o).reverse.takeWhile isNonWs).reverse).length := by
    rw [List.length_reverse]
    unfold scanLeftW at h1 ⊢
    omega
  have hmem := getD_mem ' ' _ _ hb
  exact mem_takeWhile_pred _ _ _ (List.mem_reverse.mp hmem)

lemma right_region_nonws (t : List Char) (o j : Nat)
    (h : j < scanRightW t o - o) : isNonWs ((t.drop o).getD j ' ') = true := by
  have hb : j < ((t.drop o).takeWhile isNonWs).length := by
    rw [scanRightW] at h; omega
  exact takeWhile_getD _ _ _ _ hb

lemma left_boundary (t : List Char) (o : Nat) (ho : o ≤ t.length) :
    scanLeftW t o = 0 ∨ isNonWs (t.getD (scanLeftW t o - 1) ' ') = false := by
  by_cases hz : scanLeftW t o = 0
  · exact Or.inl hz
  right
  have hlr := leftRest_len t o ho
  have hle := scanLeft_le t o
  have hDWlen : ((t.take o).reverse.dropWhile isNonWs).length = scanLeftW t o := by
    rw [← hlr, List.length_reverse]
  obtain ⟨c, rest, hDW⟩ : ∃ c rest, (t.take o).reverse.dropWhile isNonWs = c :: rest := by
    cases hD : (t.take o).reverse.dropWhile isNonWs with
    | nil => rw [hD] at hDWlen; simp at hDWlen; omega
    | cons c rest => exact ⟨c, rest, rfl⟩
  have hc : isNonWs c = false := dropWhile_head_false _ _ _ _ hDW
  have hrl : rest.length = scanLeftW t o - 1 := by
    rw [hDW] at hDWlen; simp at hDWlen; omega
  have hg1 : t.getD (scanLeftW t o - 1) ' ' = (t.take o).getD (scanLeftW t o - 1) ' ' :=
    (getD_take ' ' t o _ (by omega)).symm
  rw [hg1, take_decomp t o, hDW, List.reverse_cons, List.append_assoc]
  have hidx : scanLeftW t o - 1 = rest.reverse.length + 0 := by
    rw [List.length_reverse]; omega
  rw [hidx, getD_append_right]
  simpa using hc

lemma right_boundary (t : List Char) (o : Nat) (ho : o ≤ t.length) :
    scanRightW t o = t.length ∨ isNonWs (t.getD (scanRightW t o) ' ') = false := by
  by_cases hz : ((t.drop o).takeWhile isNonWs).length = (t.drop o).length
  · left; rw [scanRightW, hz, List.length_drop]; omega
  right
  have hlt : ((t.drop o).takeWhile isNonWs).length < (t.drop o).length :=
    lt_of_le_of_ne (length_takeWhile_le _ _) hz
  have hstop := takeWhile_stop isNonWs (t.drop o) ' ' hlt
  rw [getD_drop ' '] at hstop
  rw [scanRightW]
  exact hstop

lemma drop_getD_cons : ∀ (t : List Char) (o : Nat), o < t.length →
    t.drop o = t.getD o ' ' :: t.drop (o + 1) := by
  intro t
  induction t with
  | nil => intro o h; simp at h
  | cons a t' ih =>
    intro o h
    cases o with
    | zero => simp
    | succ o => simpa using ih o (by simpa using h)

/-! Helper lemmas about `jsLastIndexOf`, `jsIndexOf`, `termSearch` and `stripPunct`. -/

lemma lastIdxFrom_cases (l pat : List Char) :
    ∀ n : Nat, lastIdxFrom l pat n = -1 ∨
      ∃ i : Nat, lastIdxFrom l pat n = (i : Int) ∧ pat = (l.drop i).take pat.length := by
  intro n
  induction n with
  | zero =>
    rw [lastIdxFrom]
    by_cases h : pat = l.take pat.length
    · right; exact ⟨0, if_pos h, by simpa using h⟩
    · left; exact if_neg h
  | succ n ih =>
    rw [lastIdxFrom]
    by_cases h : pat = (l.drop (n + 1)).take pat.length
    · right; exact ⟨n + 1, if_pos h, h⟩
    · rw [if_neg h]; exact ih

lemma jsLastIndexOf_cases (l pat : List Char) :
    jsLastIndexOf l pat = -1 ∨
      ∃ i : Nat, jsLastIndexOf l pat = (i : Int) ∧ pat = (l.drop i).take pat.length :=
  lastIdxFrom_cases l pat l.length

lemma occ_len (l pat : List Char) (i : Nat) (hne : pat ≠ [])
    (h : pat = (l.drop i).take pat.length) : i + pat.length ≤ l.length := by
  have h2 := congrArg List.length h
  rw [List.length_take, List.length_drop] at h2
  have hpl : pat.length ≠ 0 := by simpa using hne
  omega

lemma occ2 (l : List Char) (x y : Char) (i : Nat)
    (h : [x, y] = (l.drop i).take 2) :
    l.getD i ' ' = x ∧ l.getD (i + 1) ' ' = y ∧ i + 2 ≤ l.length := by
  have hlen : i + 2 ≤ l.length := occ_len l [x, y] i (by simp) h
  have hdi : l.drop i = x :: y :: (l.drop i).drop 2 := by
    conv_lhs => rw [← List.take_append_drop 2 (l.drop i), ← h]
    rfl
  refine ⟨?_, ?_, hlen⟩
  · have h0 := getD_drop ' ' l i 0
    rw [hdi] at h0
    simpa using h0.symm
  · have h1 := getD_drop ' ' l i 1
    rw [hdi] at h1
    simpa using h1.symm

lemma occ1 (l : List Char) (x : Char) (i : Nat)
    (h : [x] = (l.drop i).take 1) :
    l.getD i ' ' = x ∧ i + 1 ≤ l.length := by
  have hlen : i + 1 ≤ l.length := occ_len l [x] i (by simp) h
  have hdi : l.drop i = x :: (l.drop i).drop 1 := by
    conv_lhs => rw [← List.take_append_drop 1 (l.drop i), ← h]
    rfl
  refine ⟨?_, hlen⟩
  have h0 := getD_drop ' ' l i 0
  rw [hdi] at h0
  simpa using h0.symm

lemma termSearch_spec : ∀ (l : List Char) (k : Nat), termSearch l = some k →
    k < l.length ∧ isTermCh (l.getD k ' ') = true ∧
    (k + 1 = l.length ∨ isWsCh (l.getD (k + 1) ' ') = true) := by
  intro l
  induction l with
  | nil => intro k h; simp [termSearch] at h
  | cons c rest ih =>
    intro k h
    simp only [termSearch] at h
    by_cases hc : termHit c rest = true
    · rw [if_pos hc] at h
      obtain rfl : k = 0 := (Option.some.inj h).symm
      unfold termHit at hc
      cases rest with
      | nil =>
        have h1 : isTermCh c = true := by simpa using hc
        exact ⟨by simp, by simpa using h1, Or.inl (by simp)⟩
      | cons d rest' =>
        obtain ⟨h1, h2⟩ := Bool.and_eq_true_iff.mp hc
        exact ⟨by simp, by simpa using h1, Or.inr (by simpa using h2)⟩
    · rw [if_neg hc] at h
      obtain ⟨k', hk', rfl⟩ := Option.map_eq_some'.mp h
      obtain ⟨hlt, hterm, hend⟩ := ih k' hk'
      refine ⟨by simpa using Nat.succ_lt_succ hlt, by simpa using hterm, ?_⟩
      rcases hend with hend | hend
      · left; simp only [List.length_cons]; omega
      · right; simpa using hend

lemma firstIdx_lead :
    ∀ (lead : List Char) (hw0 : Char) (w' rest : List Char),
      (∀ c ∈ lead, isPunctCh c = true) → isPunctCh hw0 = false →
      firstIdx (lead ++ ((hw0 :: w') ++ rest)) (hw0 :: w') = some lead.length := by
  intro lead
  induction lead with
  | nil =>
    intro hw0 w' rest _ hh
    simp only [List.nil_append, List.cons_append, List.append_eq, firstIdx]
    rw [if_pos]
    · rfl
    · rw [List.length_cons, List.take_succ_cons, List.take_left]
  | cons c lead' ih =>
    intro hw0 w' rest hlead hh
    simp only [List.cons_append, List.append_eq, firstIdx]
    have hneq : ¬ (hw0 :: w' =
        (c :: (lead' ++ (hw0 :: (w' ++ rest)))).take (hw0 :: w').length) := by
      intro hcontra
      rw [List.length_cons, List.take_succ_cons] at hcontra
      obtain ⟨h1, -⟩ := List.cons.inj hcontra
      have hct : isPunctCh c = true := hlead c (List.mem_cons_self c lead')
      rw [← h1, hh] at hct
      exact Bool.false_ne_true hct
    have ih2 := ih hw0 w' rest (fun d hd => hlead d (List.mem_cons_of_mem c hd)) hh
    simp only [List.cons_append] at ih2
    rw [if_neg hneq, ih2]
    rfl

lemma strip_decomp (l : List Char) :
    l = l.takeWhile isPunctCh ++
      (stripPunct l ++ ((l.dropWhile isPunctCh).reverse.takeWhile isPunctCh).reverse) := by
  conv_lhs => rw [← List.takeWhile_append_dropWhile isPunctCh l]
  congr 1
  show l.dropWhile isPunctCh =
    ((l.dropWhile isPunctCh).reverse.dropWhile isPunctCh).reverse ++
    ((l.dropWhile isPunctCh).reverse.takeWhile isPunctCh).reverse
  rw [← List.reverse_append, List.takeWhile_append_dropWhile, List.reverse_reverse]

lemma strip_head_npunct (l : List Char) (c : Char) (rest : List Char)
    (h : stripPunct l = c :: rest) : isPunctCh c = false := by
  have hd := strip_decomp l
  rw [h] at hd
  have h2 : l.takeWhile isPunctCh ++ l.dropWhile isPunctCh =
      l.takeWhile isPunctCh ++ ((c :: rest) ++
        ((l.dropWhile isPunctCh).reverse.takeWhile isPunctCh).reverse) := by
    rw [List.takeWhile_append_dropWhile]
    exact hd
  have h3 := List.append_cancel_left h2
  exact dropWhile_head_false isPunctCh l c _ h3

lemma strip_sub_mem (l : List Char) (c : Char) (h : c ∈ stripPunct l) : c ∈ l := by
  rw [strip_decomp l]
  exact List.mem_append.mpr (Or.inr (List.mem_append.mpr (Or.inl h)))

/-! Specification lemma for `getWordAtPoint`. -/

lemma getWord_spec (t : List Char) (o : Nat) (w : List Char) (a b : Nat)
    (h : getWordAtPoint t o = some ⟨w, a, b⟩) :
    o < t.length ∧ w = wordOf t o ∧ w ≠ [] ∧
    a = strippedStartOf t o ∧ b = a + w.length := by
  rw [getWordAtPoint] at h
  by_cases h1 : t.length ≤ o
  · rw [if_pos h1] at h; simp at h
  · rw [if_neg h1] at h
    by_cases h2 : wordOf t o = []
    · rw [if_pos h2] at h; simp at h
    · rw [if_neg h2] at h
      have hinj := Option.some.inj h
      rw [WordHit.mk.injEq] at hinj
      obtain ⟨hw, ha, hb⟩ := hinj
      refine ⟨by omega, hw.symm, hw ▸ h2, ha.symm, ?_⟩
      rw [← hb, ← ha, ← hw]

lemma word_all_nonws (t : List Char) (o : Nat) (ho : o ≤ t.length) :
    ∀ c ∈ wordOf t o, isNonWs c = true :=
  fun c hc => run_all_nonws t o ho c (strip_sub_mem _ c hc)

lemma word_position (t : List Char) (o : Nat) (ho : o < t.length)
    (hne : wordOf t o ≠ []) :
    scanLeftW t o ≤ strippedStartOf t o ∧
    strippedStartOf t o + (wordOf t o).length ≤ scanRightW t o ∧
    (t.drop (strippedStartOf t o)).take (wordOf t o).length = wordOf t o := by
  obtain ⟨c0, w', hww⟩ : ∃ c0 w', wordOf t o = c0 :: w' := by
    cases hcase : wordOf t o with
    | nil => exact absurd hcase hne
    | cons a b => exact ⟨a, b, rfl⟩
  have holt : o ≤ t.length := le_of_lt ho
  have hs1 := scanLeft_le t o
  have hs2 := scanRight_ge t o
  have hs3 := scanRight_le_len t o holt
  have hhead : isPunctCh c0 = false := strip_head_npunct (runOf t o) c0 w' hww
  set lead := (runOf t o).takeWhile isPunctCh with hlead_def
  set tailT := (((runOf t o).dropWhile isPunctCh).reverse.takeWhile isPunctCh).reverse
    with htail_def
  have hdec : runOf t o = lead ++ (wordOf t o ++ tailT) := strip_decomp (runOf t o)
  have hleadP : ∀ c ∈ lead, isPunctCh c = true := fun c hc => mem_takeWhile_pred _ _ c hc
  have hdec2 : runOf t o = lead ++ ((c0 :: w') ++ tailT) := by rw [← hww]; exact hdec
  have hfi : firstIdx (runOf t o) (c0 :: w') = some lead.length := by
    rw [hdec2]
    exact firstIdx_lead lead c0 w' tailT hleadP hhead
  have hji : (jsIndexOf (runOf t o) (wordOf t o)).toNat = lead.length := by
    unfold jsIndexOf
    rw [hww, hfi]
    simp
  have hsS : strippedStartOf t o = scanLeftW t o + lead.length := by
    unfold strippedStartOf
    rw [hji]
  have hlen : (runOf t o).length = lead.length + ((wordOf t o).length + tailT.length) := by
    rw [hdec]; simp [List.length_append]
  have hrl : (runOf t o).length = scanRightW t o - scanLeftW t o := run_length t o holt
  refine ⟨by omega, by omega, ?_⟩
  have e1 : t.drop (scanLeftW t o) = runOf t o ++ t.drop (scanRightW t o) := by
    have hx : scanLeftW t o + (scanRightW t o - scanLeftW t o) = scanRightW t o := by omega
    unfold runOf
    conv_lhs => rw [← List.take_append_drop (scanRightW t o - scanLeftW t o)
      (t.drop (scanLeftW t o))]
    rw [List.drop_drop, hx]
  have e21 : t.drop (strippedStartOf t o) = (t.drop (scanLeftW t o)).drop lead.length := by
    rw [List.drop_drop]
    congr 1
  have e2 : t.drop (strippedStartOf t o) =
      wordOf t o ++ (tailT ++ t.drop (scanRightW t o)) := by
    rw [e21, e1, hdec]
    have hshape : (lead ++ (wordOf t o ++ tailT)) ++ t.drop (scanRightW t o) =
        lead ++ (wordOf t o ++ (tailT ++ t.drop (scanRightW t o))) := by
      simp [List.append_assoc]
    rw [hshape]
    exact List.drop_left lead _
  rw [e2]
  exact List.take_left _ _

/-! Helper lemmas bounding `sentStartOf` and `sentEndOf` around a tapped word. -/

lemma term2_le (t : List Char) (o a : Nat) (x : Char) (ho : o < t.length)
    (hsa : scanLeftW t o ≤ a) (h1 : 1 ≤ a) :
    jsLastIndexOf (t.take o) [x, ' '] + 2 ≤ (a : Int) := by
  rcases jsLastIndexOf_cases (t.take o) [x, ' '] with hc | ⟨i, hi, hocc⟩
  · rw [hc]; omega
  · rw [hi]
    obtain ⟨hx, hsp, hlen2⟩ := occ2 (t.take o) x ' ' i hocc
    have hto : (t.take o).length = o := by rw [List.length_take]; omega
    by_contra hcon
    push_neg at hcon
    have hia : scanLeftW t o ≤ i + 1 := by omega
    have hio : i + 1 < o := by omega
    have hnw := left_region_nonws t o (i + 1) (le_of_lt ho) hia hio
    rw [getD_take ' ' t o (i + 1) hio] at hsp
    rw [hsp] at hnw
    exact absurd hnw (by decide)

lemma mark_le (t : List Char) (o a : Nat) (x : Char) (ho : o ≤ t.length)
    (hx : ∀ j, a < j → j < o → t.getD j ' ' ≠ x) :
    jsLastIndexOf (t.take o) [x] ≤ (a : Int) := by
  rcases jsLastIndexOf_cases (t.take o) [x] with hc | ⟨i, hi, hocc⟩
  · rw [hc]; omega
  · rw [hi]
    obtain ⟨hxx, hlen1⟩ := occ1 (t.take o) x i hocc
    have hio : i < o := by rw [List.length_take] at hlen1; omega
    rw [getD_take ' ' t o i hio] at hxx
    by_contra hcon
    push_neg at hcon
    have hai : a < i := by omega
    exact hx i hai hio hxx

lemma sentStart_le (t : List Char) (o a : Nat) (ho : o < t.length)
    (hsa : scanLeftW t o ≤ a) (h1 : 1 ≤ a)
    (hmark : ∀ j, a < j → j < o → t.getD j ' ' ≠ '¿' ∧ t.getD j ' ' ≠ '¡') :
    sentStartOf (t.take o) ≤ a := by
  unfold sentStartOf
  rw [Int.toNat_le]
  have hd := term2_le t o a '.' ho hsa h1
  have hbg := term2_le t o a '!' ho hsa h1
  have hq := term2_le t o a '?' ho hsa h1
  have hm1 := mark_le t o a '¿' (le_of_lt ho) (fun j hj1 hj2 => (hmark j hj1 hj2).1)
  have hm2 := mark_le t o a '¡' (le_of_lt ho) (fun j hj1 hj2 => (hmark j hj1 hj2).2)
  have h0 : (0 : Int) ≤ (a : Int) := by omega
  exact max_le (max_le (max_le (max_le (max_le hd hbg) hq) hm1) hm2) h0

lemma sentEnd_ge (t : List Char) (o : Nat) (ho : o ≤ t.length) :
    scanRightW t o ≤ o + sentEndOf (t.drop o) := by
  have hs3 := scanRight_le_len t o ho
  cases hts : termSearch (t.drop o) with
  | none =>
    have hsen : sentEndOf (t.drop o) = (t.drop o).length := by
      unfold sentEndOf; rw [hts]
    rw [hsen, List.length_drop]
    omega
  | some k =>
    have hsen : sentEndOf (t.drop o) = k + 1 := by
      unfold sentEndOf; rw [hts]
    rw [hsen]
    obtain ⟨hk, hterm, hend⟩ := termSearch_spec (t.drop o) k hts
    by_contra hcon
    push_neg at hcon
    have hr := right_region_nonws t o (k + 1) (by omega)
    rcases hend with hend | hend
    · rw [List.length_drop] at hend; omega
    · unfold isNonWs at hr
      rw [hend] at hr
      simp at hr

/-- C2 (amended): in word-tap mode, if the stripped token does not begin at
the paragraph's first character and no `'¿'`/`'¡'` occurs strictly between
the token start and the tap offset, then the extracted sentence contains
the emitted `text` as a substring. -/
theorem c2_sentence_contains_text_wordtap (t : List Char) (o : Nat)
    (w : List Char) (a b : Nat)
    (h : getWordAtPoint t o = some ⟨w, a, b⟩) (h1 : 1 ≤ a)
    (hmark : ∀ j, a < j → j < o → t.getD j ' ' ≠ '¿' ∧ t.getD j ' ' ≠ '¡') :
    isSub w (extractSentence t o) = true := by
  obtain ⟨ho, hw, hne, ha, hb⟩ := getWord_spec t o w a b h
  subst hw
  subst ha
  obtain ⟨hp1, hp2, hp3⟩ := word_position t o ho hne
  have hss := sentStart_le t o (strippedStartOf t o) ho hp1 h1 hmark
  have hSE := sentEnd_ge t o (le_of_lt ho)
  have hws : ∀ c ∈ wordOf t o, isWsCh c = false := by
    intro c hc
    have hnw := word_all_nonws t o (le_of_lt ho) c hc
    unfold isNonWs at hnw
    simpa using hnw
  have hsub : isSub (wordOf t o)
      ((t.take o).drop (sentStartOf (t.take o)) ++
       (t.drop o).take (sentEndOf (t.drop o))) = true := by
    by_cases hcase : sentStartOf (t.take o) ≤ o
    · have hx : sentStartOf (t.take o) + (o - sentStartOf (t.take o)) = o := by omega
      have hwin : (t.take o).drop (sentStartOf (t.take o)) ++
          (t.drop o).take (sentEndOf (t.drop o)) =
          (t.drop (sentStartOf (t.take o))).take
            ((o - sentStartOf (t.take o)) + sentEndOf (t.drop o)) := by
        rw [List.drop_take, List.take_add, List.drop_drop, hx]
      rw [hwin]
      have hw2 : ((t.drop (sentStartOf (t.take o))).drop
          (strippedStartOf t o - sentStartOf (t.take o))).take (wordOf t o).length =
          wordOf t o := by
        rw [List.drop_drop]
        have hy : sentStartOf (t.take o) +
            (strippedStartOf t o - sentStartOf (t.take o)) = strippedStartOf t o := by
          omega
        rw [hy, hp3]
      have hslice := isSub_slice (t.drop (sentStartOf (t.take o)))
        (strippedStartOf t o - sentStartOf (t.take o)) (wordOf t o).length
        ((o - sentStartOf (t.take o)) + sentEndOf (t.drop o)) (by omega)
      rw [hw2] at hslice
      exact hslice
    · push_neg at hcase
      have hdrop : (t.take o).drop (sentStartOf (t.take o)) = [] := by
        apply List.drop_eq_nil_of_le
        rw [List.length_take]
        omega
      rw [hdrop, List.nil_append]
      have hw2 : ((t.drop o).drop (strippedStartOf t o - o)).take (wordOf t o).length =
          wordOf t o := by
        rw [List.drop_drop]
        have hy : o + (strippedStartOf t o - o) = strippedStartOf t o := by omega
        rw [hy, hp3]
      have hslice := isSub_slice (t.drop o) (strippedStartOf t o - o)
        (wordOf t o).length (sentEndOf (t.drop o)) (by omega)
      rw [hw2] at hslice
      exact hslice
  unfold extractSentence
  exact isSub_trim _ _ hne hws hsub

lemma strippedStart_eq (t : List Char) (o : Nat) (hne : wordOf t o ≠ []) :
    strippedStartOf t o = scanLeftW t o + ((runOf t o).takeWhile isPunctCh).length := by
  obtain ⟨c0, w', hww⟩ : ∃ c0 w', wordOf t o = c0 :: w' := by
    cases hcase : wordOf t o with
    | nil => exact absurd hcase hne
    | cons a b => exact ⟨a, b, rfl⟩
  have hhead : isPunctCh c0 = false := strip_head_npunct (runOf t o) c0 w' hww
  set lead := (runOf t o).takeWhile isPunctCh with hlead_def
  set tailT := (((runOf t o).dropWhile isPunctCh).reverse.takeWhile isPunctCh).reverse
    with htail_def
  have hdec : runOf t o = lead ++ (wordOf t o ++ tailT) := strip_decomp (runOf t o)
  have hleadP : ∀ c ∈ lead, isPunctCh c = true := fun c hc => mem_takeWhile_pred _ _ c hc
  have hdec2 : runOf t o = lead ++ ((c0 :: w') ++ tailT) := by rw [← hww]; exact hdec
  have hfi : firstIdx (runOf t o) (c0 :: w') = some lead.length := by
    rw [hdec2]
    exact firstIdx_lead lead c0 w' tailT hleadP hhead
  have hji : (jsIndexOf (runOf t o) (wordOf t o)).toNat = lead.length := by
    unfold jsIndexOf
    rw [hww, hfi]
    simp
  unfold strippedStartOf
  rw [hji]

/-- C3 (amended): a word-tap that resolves on a non-whitespace character
emits the maximal contiguous non-whitespace run containing the tap point
with the configured punctuation (which includes the em dash and the ASCII
hyphen, but not the en dash) stripped from both ends, and the committed
highlight range `[rStart, rEnd)` covers exactly the stripped token, its
start shifted by the stripped prefix length. -/
theorem c3_wordtap_token_and_range (t : List Char) (o : Nat)
    (w : List Char) (a b : Nat)
    (h : getWordAtPoint t o = some ⟨w, a, b⟩)
    (htap : isNonWs (t.getD o ' ') = true) :
    ∃ s e, s ≤ o ∧ o < e ∧ e ≤ t.length ∧
      (∀ j, s ≤ j → j < e → isNonWs (t.getD j ' ') = true) ∧
      (s = 0 ∨ isNonWs (t.getD (s - 1) ' ') = false) ∧
      (e = t.length ∨ isNonWs (t.getD e ' ') = false) ∧
      w = stripPunct ((t.drop s).take (e - s)) ∧
      a = s + (((t.drop s).take (e - s)).takeWhile isPunctCh).length ∧
      b = a + w.length ∧
      (t.drop a).take (b - a) = w := by
  obtain ⟨ho, hw, hne, ha, hb⟩ := getWord_spec t o w a b h
  have hne2 : wordOf t o ≠ [] := hw ▸ hne
  have hstop : o < scanRightW t o := by
    unfold scanRightW
    rw [drop_getD_cons t o ho, List.takeWhile_cons, if_pos htap]
    simp
  refine ⟨scanLeftW t o, scanRightW t o, scanLeft_le t o, hstop,
    scanRight_le_len t o (le_of_lt ho), ?_,
    left_boundary t o (le_of_lt ho), right_boundary t o (le_of_lt ho),
    hw, ?_, hb, ?_⟩
  · intro j hj1 hj2
    by_cases hjo : j < o
    · exact left_region_nonws t o j (le_of_lt ho) hj1 hjo
    · push_neg at hjo
      have hr := right_region_nonws t o (j - o) (by omega)
      rw [getD_drop] at hr
      have hoj : o + (j - o) = j := by omega
      rw [hoj] at hr
      exact hr
  · rw [ha]
    exact strippedStart_eq t o hne2
  · have hba : b - a = w.length := by omega
    rw [hba, ha, hw]
    exact (word_position t o ho hne2).2.2

/-! Helper lemmas about `fireTap` and `jsTrim`. -/

lemma fireTap_fired_time (st : TapState) (now : Int) (sel : Option (Bool × List Char))
    (caret : Option (List Char × Nat)) (inSurf : Bool)
    (hf : (fireTap st now sel caret inSurf).2 = true) :
    (fireTap st now sel caret inSurf).1.lastTapTime = now := by
  unfold fireTap at hf ⊢
  by_cases hd : now - st.lastTapTime < 400
  · rw [if_pos hd] at hf; simp at hf
  · rw [if_neg hd] at hf ⊢
    by_cases hc : selBlocks sel = true
    · rw [if_pos hc] at hf; simp at hf
    · rw [if_neg hc] at hf ⊢

lemma fireTap_dedup (st : TapState) (now : Int) (sel : Option (Bool × List Char))
    (caret : Option (List Char × Nat)) (inSurf : Bool)
    (hd : now - st.lastTapTime < 400) :
    fireTap st now sel caret inSurf = (st, false) := by
  unfold fireTap
  rw [if_pos hd]

lemma jsTrim_has_nonws (l : List Char) (hne : jsTrim l ≠ []) :
    ∃ c ∈ jsTrim l, isWsCh c = false := by
  unfold jsTrim at hne ⊢
  cases hD : (l.dropWhile isWsCh).reverse.dropWhile isWsCh with
  | nil => rw [hD] at hne; simp at hne
  | cons c rest =>
    refine ⟨c, ?_, dropWhile_head_false _ _ _ _ hD⟩
    simp

/-- C5: with a single-finger touch-start on record, `onTouchEnd` commits a
word-tap resolution (returns the coordinates handed to `fireTap`) if and
only if the elapsed time is < 500ms and both absolute displacements are
< 10 pixels. -/
theorem c5_tap_classification (s : TouchPt) (tx ty now : Int) :
    (onTouchEnd (some s) true tx ty now).isSome = true ↔
      (now - s.time < 500 ∧ (tx - s.x).natAbs < 10 ∧ (ty - s.y).natAbs < 10) := by
  by_cases hc : now - s.time < 500 ∧ (tx - s.x).natAbs < 10 ∧ (ty - s.y).natAbs < 10
  · simp [onTouchEnd, hc]
  · simp [onTouchEnd, hc]

/-- C6: a tap firing while a non-collapsed native selection with trimmed
length > 1 is active performs no word-tap resolution and leaves the live
SelectionResult unchanged. -/
theorem c6_active_selection_blocks_tap (st : TapState) (now : Int)
    (selText : List Char) (caret : Option (List Char × Nat)) (inSurf : Bool)
    (hlen : 1 < (jsTrim selText).length) :
    (fireTap st now (some (false, selText)) caret inSurf).1.cur = st.cur ∧
    (fireTap st now (some (false, selText)) caret inSurf).2 = false := by
  unfold fireTap
  by_cases hd : now - st.lastTapTime < 400
  · rw [if_pos hd]
    exact ⟨rfl, rfl⟩
  · rw [if_neg hd]
    have hcond : selBlocks (some (false, selText)) = true := by
      simp [selBlocks, hlen]
    rw [if_pos hcond]
    exact ⟨rfl, rfl⟩

/-- C7: two tap events within the 400ms dedup window fire at most one
word-tap resolution; if the first fired, the second is a complete no-op
(state unchanged, resolver not invoked), so only one SelectionResult is
produced. -/
theorem c7_dedup_idempotent (st : TapState) (t1 t2 : Int)
    (sel1 sel2 : Option (Bool × List Char))
    (car1 car2 : Option (List Char × Nat)) (s1 s2 : Bool)
    (hdt : t2 - t1 < 400) :
    ((fireTap st t1 sel1 car1 s1).2 = true →
      fireTap (fireTap st t1 sel1 car1 s1).1 t2 sel2 car2 s2 =
        ((fireTap st t1 sel1 car1 s1).1, false)) ∧
    ¬((fireTap st t1 sel1 car1 s1).2 = true ∧
      (fireTap (fireTap st t1 sel1 car1 s1).1 t2 sel2 car2 s2).2 = true) := by
  have hmain : (fireTap st t1 sel1 car1 s1).2 = true →
      fireTap (fireTap st t1 sel1 car1 s1).1 t2 sel2 car2 s2 =
        ((fireTap st t1 sel1 car1 s1).1, false) := by
    intro hf
    have hlt := fireTap_fired_time st t1 sel1 car1 s1 hf
    exact fireTap_dedup (fireTap st t1 sel1 car1 s1).1 t2 sel2 car2 s2
      (by rw [hlt]; exact hdt)
  refine ⟨hmain, ?_⟩
  rintro ⟨h1, h2⟩
  rw [hmain h1] at h2
  simp at h2

/-- C4 (amended): a debounced selection-change with a non-collapsed
selection inside the surface whose trimmed text has length ≥ 2 emits a
SelectionResult whose `text` is the selected text trimmed of leading and
trailing whitespace (internal spaces preserved); a selection whose trimmed
text is shorter than 2 characters emits nothing and leaves the live
result unchanged. -/
theorem c4_phrase_text_trimmed :
    (∀ (para : List Char) (s e : Nat) (cur : Option TSel),
      s ≠ e → 2 ≤ (jsTrim ((para.drop s).take (e - s))).length →
      handleSelectionChange para s e true cur =
        some ⟨jsTrim ((para.drop s).take (e - s)), extractSentence para s⟩) ∧
    (∀ (para : List Char) (s e : Nat) (inSurf : Bool) (cur : Option TSel),
      (jsTrim ((para.drop s).take (e - s))).length < 2 →
      handleSelectionChange para s e inSurf cur = cur) := by
  constructor
  · intro para s e cur hne hlen
    unfold handleSelectionChange
    rw [if_neg hne, if_neg (by simp : ¬((!true) = true))]
    have hg : ¬(jsTrim ((para.drop s).take (e - s)) = [] ∨
        (jsTrim ((para.drop s).take (e - s))).length < 2) := by
      push_neg
      refine ⟨?_, by omega⟩
      intro hemp
      rw [hemp] at hlen
      simp at hlen
    rw [if_neg hg]
  · intro para s e inSurf cur hlen
    unfold handleSelectionChange
    by_cases h1 : s = e
    · rw [if_pos h1]
    · rw [if_neg h1]
      by_cases h2 : (!inSurf) = true
      · rw [if_pos h2]
      · rw [if_neg h2]
        rw [if_pos (Or.inr hlen)]

/-- C8: every failure condition is a silent no-op that leaves the live
SelectionResult unchanged: no caret resolves (no caret API available or
tap outside the document), tap outside the text surface, caret resolving
to no word (including a token made only of configured punctuation),
selection-change outside the surface, and selection-change with trimmed
text shorter than 2 characters. -/
theorem c8_failures_silent :
    (∀ (inSurf : Bool) (cur : Option TSel), selectWordAt none inSurf cur = cur) ∧
    (∀ (caret : Option (List Char × Nat)) (cur : Option TSel),
      selectWordAt caret false cur = cur) ∧
    (∀ (t : List Char) (o : Nat) (cur : Option TSel),
      getWordAtPoint t o = none → selectWordAt (some (t, o)) true cur = cur) ∧
    (∀ (t : List Char) (o : Nat) (cur : Option TSel),
      (∀ c ∈ runOf t o, isPunctCh c = true) →
      selectWordAt (some (t, o)) true cur = cur) ∧
    (∀ (para : List Char) (s e : Nat) (cur : Option TSel),
      handleSelectionChange para s e false cur = cur) ∧
    (∀ (para : List Char) (s e : Nat) (inSurf : Bool) (cur : Option TSel),
      (jsTrim ((para.drop s).take (e - s))).length < 2 →
      handleSelectionChange para s e inSurf cur = cur) := by
  refine ⟨fun _ _ => rfl, ?_, ?_, ?_, ?_, ?_⟩
  · intro caret cur
    cases caret with
    | none => rfl
    | some p => rfl
  · intro t o cur hgw
    simp [selectWordAt, hgw]
  · intro t o cur hall
    have hword : wordOf t o = [] := by
      unfold wordOf stripPunct
      rw [dropWhile_nil_of_all isPunctCh (runOf t o) hall]
      rfl
    have hnone : getWordAtPoint t o = none := by
      unfold getWordAtPoint
      by_cases hlo : t.length ≤ o
      · rw [if_pos hlo]
      · rw [if_neg hlo, if_pos hword]
    simp [selectWordAt, hnone]
  · intro para s e cur
    unfold handleSelectionChange
    by_cases h1 : s = e
    · rw [if_pos h1]
    · rw [if_neg h1, if_pos (by simp : (!false) = true)]
  · intro para s e inSurf cur hlen
    unfold handleSelectionChange
    by_cases h1 : s = e
    · rw [if_pos h1]
    · rw [if_neg h1]
      by_cases h2 : (!inSurf) = true
      · rw [if_pos h2]
      · rw [if_neg h2, if_pos (Or.inr hlen)]

/-- C9 (amended): phrase-mode emissions have non-empty `text` containing a
non-whitespace character (but may be pure punctuation, see the
counterexample); word-tap emissions additionally contain a character that
is neither whitespace nor configured punctuation. -/
theorem c9_text_not_blank :
    (∀ (para : List Char) (s e : Nat) (cur : Option TSel),
      s ≠ e → 2 ≤ (jsTrim ((para.drop s).take (e - s))).length →
      handleSelectionChange para s e true cur =
        some ⟨jsTrim ((para.drop s).take (e - s)), extractSentence para s⟩ ∧
      jsTrim ((para.drop s).take (e - s)) ≠ [] ∧
      (∃ c ∈ jsTrim ((para.drop s).take (e - s)), isWsCh c = false)) ∧
    (∀ (t : List Char) (o : Nat) (w : List Char) (a b : Nat),
      getWordAtPoint t o = some ⟨w, a, b⟩ →
      w ≠ [] ∧ ∃ c ∈ w, isWsCh c = false ∧ isPunctCh c = false) := by
  constructor
  · intro para s e cur hne hlen
    have hemp : jsTrim ((para.drop s).take (e - s)) ≠ [] := by
      intro hemp
      rw [hemp] at hlen
      simp at hlen
    refine ⟨?_, hemp, jsTrim_has_nonws _ hemp⟩
    unfold handleSelectionChange
    rw [if_neg hne, if_neg (by simp : ¬((!true) = true))]
    rw [if_neg (by push_neg; exact ⟨hemp, by omega⟩)]
  · intro t o w a b h
    obtain ⟨ho, hw, hne, -, -⟩ := getWord_spec t o w a b h
    have hne2 : wordOf t o ≠ [] := hw ▸ hne
    obtain ⟨c0, w', hww⟩ : ∃ c0 w', wordOf t o = c0 :: w' := by
      cases hcase : wordOf t o with
      | nil => exact absurd hcase hne2
      | cons x y => exact ⟨x, y, rfl⟩
    refine ⟨hne, c0, ?_, ?_, strip_head_npunct (runOf t o) c0 w' hww⟩
    · rw [hw, hww]
      exact List.mem_cons_self c0 w'
    · have hnw := word_all_nonws t o (le_of_lt ho) c0
        (by rw [hww]; exact List.mem_cons_self c0 w')
      unfold isNonWs at hnw
      simpa using hnw

/-- C10: a caret offset at or past the end of the text node resolves to no
word and leaves the live SelectionResult unchanged, and for any in-range
offset the word-boundary scan indices stay within the node's bounds. -/
theorem c10_caret_end_guard :
    (∀ (t : List Char) (o : Nat), t.length ≤ o → getWordAtPoint t o = none) ∧
    (∀ (t : List Char) (o : Nat) (inSurf : Bool) (cur : Option TSel),
      t.length ≤ o → selectWordAt (some (t, o)) inSurf cur = cur) ∧
    (∀ (t : List Char) (o : Nat), o < t.length →
      scanLeftW t o ≤ o ∧ o ≤ scanRightW t o ∧ scanRightW t o ≤ t.length) := by
  refine ⟨?_, ?_, ?_⟩
  · intro t o h
    unfold getWordAtPoint
    rw [if_pos h]
  · intro t o inSurf cur h
    have hn : getWordAtPoint t o = none := by
      unfold getWordAtPoint
      rw [if_pos h]
    cases inSurf with
    | false => rfl
    | true => simp [selectWordAt, hn]
  · intro t o h
    exact ⟨scanLeft_le t o, scanRight_ge t o, scanRight_le_len t o (le_of_lt h)⟩

/-- C1: the code drops the paragraph's first character whenever no
`". "`/`"! "`/`"? "` occurs before the offset, because `lastIndexOf`
returns `-1` and the code adds 2 to it, making `sentenceStart` equal 1
instead of the 0 the claim states; on `"Hola mundo."` at offset 2 the code
returns `"ola mundo."` while the claim's algorithm returns
`"Hola mundo."`.  The claim's two positive examples do hold. -/
theorem c1_first_char_dropped :
    extractSentence ("Hola mundo.".toList) 2 = ("ola mundo.".toList) ∧
    specSentenceC1 ("Hola mundo.".toList) 2 = ("Hola mundo.".toList) ∧
    extractSentence ("Él corrió. Ella esperó. ¿Qué pasó?".toList) 16 =
      ("Ella esperó.".toList) ∧
    extractSentence ("Él corrió. Ella esperó. ¿Qué pasó?".toList) 30 =
      ("¿Qué pasó?".toList) := by
  exact ⟨by decide, by decide, by decide, by decide⟩

/-- C2 counterexample: a phrase-mode drag across a sentence boundary emits
a SelectionResult whose `sentence` does not contain its `text`. -/
theorem c2_counterexample :
    handleSelectionChange ("Hola mundo. Adiós ya.".toList) 5 17 true none =
      some ⟨"mundo. Adiós".toList, "ola mundo.".toList⟩ ∧
    isSub ("mundo. Adiós".toList) ("ola mundo.".toList) = false := by
  exact ⟨by decide, by decide⟩

/-- C2 witness: tapping "Adiós" in `"Hola mundo. Adiós ya."` yields a word
whose extracted sentence contains it. -/
theorem c2_witness :
    getWordAtPoint ("Hola mundo. Adiós ya.".toList) 13 =
      some ⟨"Adiós".toList, 12, 17⟩ ∧
    isSub ("Adiós".toList)
      (extractSentence ("Hola mundo. Adiós ya.".toList) 13) = true :=
  ⟨by decide,
   c2_sentence_contains_text_wordtap ("Hola mundo. Adiós ya.".toList) 13
     ("Adiós".toList) 12 17 (by decide) (by decide)
     (fun j h1 h2 => absurd h2 (by omega))⟩

/-- C3 counterexample: the en dash U+2013 is not in the configured
punctuation set (the code strips the em dash and the ASCII hyphen), so a
token wrapped in en dashes is emitted with the dashes kept, contradicting
the claim's "em/en dash" stripping. -/
theorem c3_counterexample :
    getWordAtPoint ("–ja–".toList) 1 = some ⟨"–ja–".toList, 0, 4⟩ ∧
    isPunctCh '–' = false ∧
    ("–ja–".toList).take 1 = ['–'] := by
  exact ⟨by decide, by decide, by decide⟩

/-- C3 witness: tapping the run `"«hola»,"` yields `text = "hola"` with the
committed range `[4, 8)` excluding the guillemets and the trailing comma. -/
theorem c3_witness :
    getWordAtPoint ("di «hola», ya".toList) 4 = some ⟨"hola".toList, 4, 8⟩ ∧
    (∃ s e, s ≤ 4 ∧ 4 < e ∧ e ≤ ("di «hola», ya".toList).length ∧
      (∀ j, s ≤ j → j < e → isNonWs (("di «hola», ya".toList).getD j ' ') = true) ∧
      (s = 0 ∨ isNonWs (("di «hola», ya".toList).getD (s - 1) ' ') = false) ∧
      (e = ("di «hola», ya".toList).length ∨
        isNonWs (("di «hola», ya".toList).getD e ' ') = false) ∧
      "hola".toList = stripPunct ((("di «hola», ya".toList).drop s).take (e - s)) ∧
      4 = s +
        (((("di «hola», ya".toList).drop s).take (e - s)).takeWhile isPunctCh).length ∧
      8 = 4 + ("hola".toList).length ∧
      (("di «hola», ya".toList).drop 4).take (8 - 4) = "hola".toList) :=
  ⟨by decide,
   c3_wordtap_token_and_range ("di «hola», ya".toList) 4 ("hola".toList) 4 8
     (by decide) (by decide)⟩

/-- C4 counterexample: a native selection with leading/trailing whitespace
(`" ab "`) is emitted trimmed (`"ab"`), so the emitted `text` is not
exactly the selected text. -/
theorem c4_counterexample :
    handleSelectionChange (" ab cd".toList) 0 4 true none =
      some ⟨"ab".toList, "ab cd".toList⟩ ∧
    "ab".toList ≠ ((" ab cd".toList).drop 0).take (4 - 0) := by
  exact ⟨by decide, by decide⟩

/-- C4 witness: the drag-selection `"el sombrero de tres"` is emitted
exactly, internal spaces preserved. -/
theorem c4_witness :
    handleSelectionChange ("Compró el sombrero de tres picos.".toList) 7 26 true none =
      some ⟨jsTrim ((("Compró el sombrero de tres picos.".toList).drop 7).take (26 - 7)),
        extractSentence ("Compró el sombrero de tres picos.".toList) 7⟩ ∧
    jsTrim ((("Compró el sombrero de tres picos.".toList).drop 7).take (26 - 7)) =
      "el sombrero de tres".toList :=
  ⟨c4_phrase_text_trimmed.1 ("Compró el sombrero de tres picos.".toList) 7 26 none
    (by decide) (by decide), by decide⟩

/-- C6 witness: with an active non-collapsed selection of trimmed length
11, a tap leaves the live selection unchanged and fires no resolution. -/
theorem c6_witness :
    (fireTap ⟨0, none⟩ 1000 (some (false, "el sombrero".toList)) none true).1.cur =
      (⟨0, none⟩ : TapState).cur ∧
    (fireTap ⟨0, none⟩ 1000 (some (false, "el sombrero".toList)) none true).2 = false :=
  c6_active_selection_blocks_tap ⟨0, none⟩ 1000 ("el sombrero".toList) none true
    (by decide)

/-- C7 witness: a second tap 200ms after the first is a no-op. -/
theorem c7_witness :
    ((fireTap ⟨0, none⟩ 1000 none none false).2 = true →
      fireTap (fireTap ⟨0, none⟩ 1000 none none false).1 1200 none none false =
        ((fireTap ⟨0, none⟩ 1000 none none false).1, false)) ∧
    ¬((fireTap ⟨0, none⟩ 1000 none none false).2 = true ∧
      (fireTap (fireTap ⟨0, none⟩ 1000 none none false).1 1200 none none false).2 =
        true) :=
  c7_dedup_idempotent ⟨0, none⟩ 1000 1200 none none none none false false (by decide)

/-- C8 witness: concrete silent no-ops — caret past the end of the node, a
tapped token made only of punctuation, and a 1-character selection. -/
theorem c8_witness :
    selectWordAt (some ("ab cd".toList, 7)) true (some ⟨"x".toList, "x".toList⟩) =
      some ⟨"x".toList, "x".toList⟩ ∧
    selectWordAt (some ("«».,".toList, 1)) true none = none ∧
    handleSelectionChange ("abc".toList) 0 1 true (some ⟨"y".toList, "y".toList⟩) =
      some ⟨"y".toList, "y".toList⟩ :=
  ⟨c8_failures_silent.2.2.1 ("ab cd".toList) 7 (some ⟨"x".toList, "x".toList⟩)
     (by decide),
   c8_failures_silent.2.2.2.1 ("«».,".toList) 1 none (by decide),
   c8_failures_silent.2.2.2.2.2 ("abc".toList) 0 1 true (some ⟨"y".toList, "y".toList⟩)
     (by decide)⟩

/-- C9 counterexample: a phrase-mode selection of `"!!"` is emitted even
though its text is composed purely of punctuation. -/
theorem c9_counterexample :
    handleSelectionChange ("no!! si".toList) 2 4 true none =
      some ⟨"!!".toList, "o!!".toList⟩ ∧
    "!!".toList ≠ [] ∧
    (∀ c ∈ ("!!".toList), isWsCh c = true ∨ isPunctCh c = true) := by
  exact ⟨by decide, by decide, by decide⟩

/-- C9 witness: a phrase emission (`"Cómo"`) and a word-tap emission
(`"hola"`) with the amended non-blank guarantees. -/
theorem c9_witness :
    (handleSelectionChange ("¡Hola! ¿Cómo estás?".toList) 8 12 true none =
        some ⟨jsTrim ((("¡Hola! ¿Cómo estás?".toList).drop 8).take (12 - 8)),
          extractSentence ("¡Hola! ¿Cómo estás?".toList) 8⟩ ∧
      jsTrim ((("¡Hola! ¿Cómo estás?".toList).drop 8).take (12 - 8)) ≠ [] ∧
      (∃ c ∈ jsTrim ((("¡Hola! ¿Cómo estás?".toList).drop 8).take (12 - 8)),
        isWsCh c = false)) ∧
    ("hola".toList ≠ [] ∧
      ∃ c ∈ ("hola".toList), isWsCh c = false ∧ isPunctCh c = false) :=
  ⟨c9_text_not_blank.1 ("¡Hola! ¿Cómo estás?".toList) 8 12 none (by decide) (by decide),
   c9_text_not_blank.2 ("di «hola», ya".toList) 4 ("hola".toList) 4 8 (by decide)⟩

/-- C10 witness: a caret at offset 5 of a 2-character node resolves to no
word and changes nothing, and the scans at a valid offset stay in bounds. -/
theorem c10_witness :
    getWordAtPoint ("ab".toList) 5 = none ∧
    selectWordAt (some ("ab".toList, 5)) true none = none ∧
    (scanLeftW ("abc de".toList) 4 ≤ 4 ∧ 4 ≤ scanRightW ("abc de".toList) 4 ∧
      scanRightW ("abc de".toList) 4 ≤ ("abc de".toList).length) :=
  ⟨c10_caret_end_guard.1 ("ab".toList) 5 (by decide),
   c10_caret_end_guard.2.1 ("ab".toList) 5 true none (by decide),
   c10_caret_end_guard.2.2 ("abc de".toList) 4 (by decide)⟩
